import Mathlib

/-!
# Verification of the collision-creator core (`src/__init__.py`)

Shallow embedding of the geometry core of the Blender add-on
`blender-collision-creator`.  Coordinates are embedded as exact rationals
(`ℚ`): the Python code works with floats, and the spec's properties are
stated up to epsilon, so the exact-arithmetic model proves the stronger,
tolerance-free statements.

Embedded functions (names follow the source):

* `create_convex_hull`      — `src/__init__.py` lines 140–163;
* `compute_pca_orientation` — lines 166–172 (`np.cov` modelled with numpy's
  documented default normalisation, `ddof = 1`, i.e. division by `N - 1`);
* `apply_scale_offset_rotation` — lines 121–125;
* `move_origin_to_geometry_center` — lines 127–138;
* `create_collision_block`  — lines 174–253 (geometry path; the host-glue
  parts — naming, material, selection restore — are out of the spec's core
  scope and are not modelled).

External library calls (`bmesh.ops.convex_hull`, `numpy.linalg.eigh`, the
Euler-angles-to-matrix conversion of the host) are not part of this
repository; they enter the embedding as explicit function parameters, and
geometric facts about the hull operator are proved against `hullVertices`,
the set-level model of its documented output.
-/

/-- A 3D point / vector with rational coordinates (`mathutils.Vector`). -/
abbrev V3 : Type := Fin 3 → ℚ

/-- A 3×3 matrix with rational entries (`mathutils.Matrix`), row-major:
`m i j` is the entry in row `i`, column `j`. -/
abbrev M3 : Type := Fin 3 → Fin 3 → ℚ

/-- Matrix–vector product `m @ v`. -/
def mulV (m : M3) (v : V3) : V3 := fun i => ∑ j, m i j * v j

/-- The identity matrix. -/
def id3 : M3 := fun i j => if i = j then 1 else 0

/-- Componentwise minimum of two points (one step of `np.min(coords, axis=0)`). -/
def vmin (a b : V3) : V3 := fun i => min (a i) (b i)

/-- Componentwise maximum of two points (one step of `np.max(coords, axis=0)`). -/
def vmax (a b : V3) : V3 := fun i => max (a i) (b i)

/-- `np.min(coords, axis=0)` over a non-empty point list `h :: t`. -/
def listMin (h : V3) (t : List V3) : V3 := t.foldl vmin h

/-- `np.max(coords, axis=0)` over a non-empty point list `h :: t`. -/
def listMax (h : V3) (t : List V3) : V3 := t.foldl vmax h

/-- The mesh data carried by a `bmesh` / `bpy.data.meshes` object: vertex
coordinates plus edges and faces as indices into the vertex list. -/
structure BMesh where
  verts : List V3
  edges : List (Nat × Nat)
  faces : List (List Nat)
deriving DecidableEq

/-- Whether vertex index `i` of mesh `m` is used by at least one edge
(the Python test `v.link_edges`). -/
def vertHasEdge (m : BMesh) (i : Nat) : Bool :=
  m.edges.any fun e => e.1 = i || e.2 = i

/-- `bmesh.ops.delete(bm, geom=[v for v in bm.verts if not v.link_edges],
context='VERTS')` (line 154): remove every vertex with no incident edge and
reindex the surviving geometry. -/
def deleteIsolatedVerts (m : BMesh) : BMesh :=
  let keep := (List.range m.verts.length).filter fun i => vertHasEdge m i
  let newIndex : Nat → Nat := fun i => keep.indexOf i
  { verts := keep.map fun i => m.verts.getD i 0
    edges := m.edges.map fun e => (newIndex e.1, newIndex e.2)
    faces := m.faces.map fun f => f.map newIndex }

/-- `create_convex_hull` (lines 140–163), geometry part: build a `bmesh`
holding the selected vertices, run the external hull operator
(`bmesh.ops.convex_hull`, passed in as `hullOp`), then delete isolated
vertices.  The resulting mesh is what `bm.to_mesh` writes out. -/
def create_convex_hull (hullOp : BMesh → BMesh) (selected_verts : List V3) : BMesh :=
  deleteIsolatedVerts (hullOp { verts := selected_verts, edges := [], faces := [] })

/-- A Blender object as far as the core touches it: mesh data plus the
`location` and `rotation` channels of its transform (`matrix_world` is
translation-by-`location` composed with `rotation`; the add-on never sets a
scale). -/
structure BObject where
  mesh : BMesh
  location : V3
  rotation : M3
deriving DecidableEq

/-- World-space positions of an object's vertices:
`[obj.matrix_world @ v.co for v in obj.data.vertices]`. -/
def worldVerts (b : BObject) : List V3 :=
  b.mesh.verts.map fun v => mulV b.rotation v + b.location

/-- `apply_scale_offset_rotation` (lines 121–125): add the offset to the
object's location, overwrite `rotation_euler` with the given rotation
(embedded as the matrix `rotE` the host derives from the Euler triple), then
`transform_apply(location=True, rotation=True)`: every vertex is rewritten to
its world position and the transform is reset to the identity. -/
def apply_scale_offset_rotation (block : BObject) (offset : V3) (rotE : M3) : BObject :=
  let loc := block.location + offset
  { mesh := { block.mesh with
      verts := block.mesh.verts.map fun v => mulV rotE v + loc }
    location := 0
    rotation := id3 }

/-- Center of the object's bounding box (`origin_set(center='BOUNDS')`),
in local coordinates; `0` for an empty mesh. -/
def bboxCenter (vs : List V3) : V3 :=
  match vs with
  | [] => 0
  | h :: t => (listMin h t + listMax h t) / 2

/-- `move_origin_to_geometry_center` (lines 127–138):
`bpy.ops.object.origin_set(type='ORIGIN_GEOMETRY', center='BOUNDS')` shifts
every local vertex by `-center` and moves the object's world translation by
`rotation @ center`, keeping world-space vertex positions unchanged. -/
def move_origin_to_geometry_center (block : BObject) : BObject :=
  let c := bboxCenter block.mesh.verts
  { mesh := { block.mesh with verts := block.mesh.verts.map fun v => v - c }
    location := block.location + mulV block.rotation c
    rotation := block.rotation }

/-- Sum of a list of points, componentwise (`np.sum` semantics). -/
def vsum (vs : List V3) : V3 := vs.foldr (· + ·) 0

/-- `np.mean(coords, axis=0)`: componentwise mean of a point list. -/
def npMean (vs : List V3) : V3 := vsum vs / (fun _ => (vs.length : ℚ))

/-- Row `i` of `coords_centered.T`: the list of `i`-th coordinates. -/
def rowOf (i : Fin 3) (pts : List V3) : List ℚ := pts.map fun p => p i

/-- A data row centered by its own mean, as `np.cov` does internally. -/
def rowCentered (r : List ℚ) : List ℚ := r.map fun x => x - r.sum / r.length

/-- Dot product of two equally long data rows. -/
def dotRow (a b : List ℚ) : ℚ := (List.zipWith (· * ·) a b).sum

/-- `np.cov(X)` for a 3×N data matrix whose rows are coordinate samples:
numpy's documented default is `bias=False` / `ddof=1`, i.e. each row is
centered by its mean and the entry `(i, j)` is the dot product of the
centered rows divided by `N - 1`. -/
def np_cov (pts : List V3) : M3 := fun i j =>
  dotRow (rowCentered (rowOf i pts)) (rowCentered (rowOf j pts)) / (pts.length - 1)

/-- `compute_pca_orientation` (lines 166–172): center the coordinates at the
mean, form `np.cov(coords_centered.T)` and return the eigenvectors produced
by `np.linalg.eigh` (an external solver, passed in as `eigh`).  The Python
body contains no degeneracy check and no `raise` statement. -/
def compute_pca_orientation (eigh : M3 → M3) (vertices : List V3) : M3 :=
  let m := npMean vertices
  let coords_centered := vertices.map fun v => v - m
  eigh (np_cov coords_centered)

/-- Local coordinates of the eight vertices of
`bpy.ops.mesh.primitive_cube_add(size=1)`: a cube of edge length 1 centered
at the object origin. -/
def cubeLocals : List V3 :=
  [![-(1/2), -(1/2), -(1/2)], ![-(1/2), -(1/2), 1/2],
   ![-(1/2), 1/2, -(1/2)], ![-(1/2), 1/2, 1/2],
   ![1/2, -(1/2), -(1/2)], ![1/2, -(1/2), 1/2],
   ![1/2, 1/2, -(1/2)], ![1/2, 1/2, 1/2]]

/-- Edges of the unit cube primitive (indices into `cubeLocals`). -/
def cubeEdges : List (Nat × Nat) :=
  [(0, 1), (0, 2), (0, 4), (1, 3), (1, 5), (2, 3),
   (2, 6), (3, 7), (4, 5), (4, 6), (5, 7), (6, 7)]

/-- Quad faces of the unit cube primitive (indices into `cubeLocals`). -/
def cubeFaces : List (List Nat) :=
  [[0, 1, 3, 2], [4, 6, 7, 5], [0, 4, 5, 1], [2, 3, 7, 6], [0, 2, 6, 4], [1, 5, 7, 3]]

/-- The snapping step of the box branch (lines 225–227): each global
coordinate of a cube corner (`center + s`) is snapped to `min` if it lies
below the center and to `max` otherwise. -/
def snapCorner (mn mx center s : V3) : V3 :=
  fun i => if center i + s i < center i then mn i else mx i

/-- The per-vertex rewrite of the box branch (lines 223–228).  The cube was
just added at `location = center` with identity rotation, so
`matrix_world @ v.co = center + v.co`; each global coordinate is snapped to
the `[min, max]` bounds, and the vertex is written back through the inverse
matrix, i.e. shifted by `-center`. -/
def boxLocalVert (mn mx center s : V3) : V3 :=
  snapCorner mn mx center s - center

/-- The spec's box round-trip example: points
`(0,0,0), (2,0,0), (0,2,0), (0,0,2)`. -/
def boxPts : List V3 := [![0, 0, 0], ![2, 0, 0], ![0, 2, 0], ![0, 0, 2]]

/-- Mesh data of the box branch after the vertex rewrite loop. -/
def boxBMesh (mn mx center : V3) : BMesh :=
  { verts := cubeLocals.map fun s => boxLocalVert mn mx center s
    edges := cubeEdges
    faces := cubeFaces }

/-- The error taxonomy named by the spec (§6/§7).  No identifier of this
kind exists anywhere in `src/__init__.py`; the constructors are declared so
that the spec's error-handling claims can be stated against the embedding,
which never produces them. -/
inductive CCBError where
  | emptyInputError
  | degenerateInputError
  | invalidMethodError
deriving DecidableEq

/-- The `method` enum of the operator panel (`'convex' | 'box'`). -/
inductive Method where
  | convex
  | box
deriving DecidableEq

/-- Outcome of `create_collision_block`.  The Python function returns `None`
after printing when no vertices are selected (`noSelection`) and otherwise
completes, leaving the new object in the scene (`created`); the `error` case
exists only to state the spec's claims about surfaced errors. -/
inductive CCBResult where
  | noSelection
  | created (block : BObject)
  | error (e : CCBError)
deriving DecidableEq

/-- `true` iff an object was created. -/
def CCBResult.isCreated : CCBResult → Bool
  | .created _ => true
  | _ => false

/-- World-space vertex positions of the created object, when one exists. -/
def CCBResult.resultWorldVerts : CCBResult → Option (List V3)
  | .created b => some (worldVerts b)
  | _ => none

/-- `create_collision_block` (lines 174–253), geometry path.  Host-glue
concerns (active-object lookup, naming, material, selection restore, mode
switches) are outside the spec's core scope and are not modelled; the
external hull operator, eigensolver and Euler-to-matrix conversion enter as
the parameters `hullOp`, `eigh` and `eulerToMat`.

* empty selection (lines 183–185): print and return — nothing is created;
* `'convex'` (lines 197–212): compute the PCA orientation, build the hull
  mesh (its vertices are the world-space hull positions), then set
  `matrix_world` to the pure-rotation orientation matrix (zero translation);
* `'box'` (lines 214–232): add a unit cube at the midpoint of min/max and
  snap its corners to the bounds;
* tail (lines 236–238): `apply_scale_offset_rotation` then
  `move_origin_to_geometry_center`, in that order. -/
def create_collision_block (hullOp : BMesh → BMesh) (eigh : M3 → M3)
    (eulerToMat : V3 → M3) (selected_verts : List V3) (method : Method)
    (offset : V3) (rotation : V3) : CCBResult :=
  match selected_verts with
  | [] => .noSelection
  | h :: t =>
    let new_block : BObject :=
      match method with
      | .convex =>
        let orientation := compute_pca_orientation eigh (h :: t)
        let hullMesh := create_convex_hull hullOp (h :: t)
        { mesh := hullMesh, location := 0, rotation := orientation }
      | .box =>
        let mn := listMin h t
        let mx := listMax h t
        let center := (mn + mx) / 2
        { mesh := boxBMesh mn mx center, location := center, rotation := id3 }
    let b1 := apply_scale_offset_rotation new_block offset (eulerToMat rotation)
    let b2 := move_origin_to_geometry_center b1
    .created b2

/-- Set-level model of the vertex set produced by `bmesh.ops.convex_hull`
followed by the isolated-vertex deletion of `create_convex_hull`: per the
operator's documented behaviour, the vertices of the emitted hull are exactly
the input points on the hull — the points that are not inside the convex hull
of the remaining points — while interior points are left isolated and then
deleted at line 154. -/
def hullVertices (A : Set V3) : Set V3 :=
  {p | p ∈ A ∧ p ∉ convexHull ℚ (A \ {p})}

/-- Determinant of a 2×2 matrix given entrywise. -/
def minor2 (a b c d : ℚ) : ℚ := a * d - b * c

/-- Determinant of the 3×3 matrix with rows `a`, `b`, `c`, expanded along
the first row. -/
def det3v (a b c : V3) : ℚ :=
  a 0 * minor2 (b 1) (b 2) (c 1) (c 2)
    - a 1 * minor2 (b 0) (b 2) (c 0) (c 2)
    + a 2 * minor2 (b 0) (b 1) (c 0) (c 1)

/-- Determinant of a 3×3 matrix. -/
def det3 (m : M3) : ℚ := det3v (m 0) (m 1) (m 2)

/-- The point set spans 3 dimensions: some four of its points are affinely
independent. -/
def spans3 (S : Finset V3) : Prop :=
  ∃ p₀ ∈ S, ∃ p₁ ∈ S, ∃ p₂ ∈ S, ∃ p₃ ∈ S,
    det3v (p₁ - p₀) (p₂ - p₀) (p₃ - p₀) ≠ 0

instance (S : Finset V3) : Decidable (spans3 S) := by
  unfold spans3; infer_instance

/-- Modelled from the spec (§4.1), for comparison with the code:
`Cov[i][j] = mean((p[i]-mean_i)*(p[j]-mean_j))` — sum of products of centered
coordinates divided by the number of points `N`. -/
def specCovariance (pts : List V3) : M3 := fun i j =>
  ((pts.map fun p => (p i - npMean pts i) * (p j - npMean pts j)).sum) / pts.length

/-- The spec-style covariance formula with numpy's actual normalisation:
sum of products of centered coordinates divided by `N - 1`. -/
def covSumN1 (pts : List V3) : M3 := fun i j =>
  ((pts.map fun p => (p i - npMean pts i) * (p j - npMean pts j)).sum) / (pts.length - 1)

/-- A trivial instantiation of the external eigensolver (used to evaluate
the embedding at concrete inputs; the claims proved below quantify over the
solver wherever its output matters). -/
def idEigh : M3 → M3 := fun _ => id3

/-- A trivial instantiation of the host's Euler-to-matrix conversion, which
maps zero rotation to the identity as the host does. -/
def idEuler : V3 → M3 := fun _ => id3

/-- The matrix exchanging the x and y axes: a perfectly legitimate
orthonormal eigenvector matrix, used as a concrete eigensolver output. -/
def swapXY : M3 := fun i j =>
  if (i = 0 ∧ j = 1) ∨ (i = 1 ∧ j = 0) ∨ (i = 2 ∧ j = 2) then 1 else 0

/-- An eigensolver instantiation returning `swapXY` (a non-identity PCA
basis) on every covariance matrix. -/
def swapEigh : M3 → M3 := fun _ => swapXY

/-- Hull operator instantiation for a tetrahedron input: all four input
points are hull vertices; full tetrahedron topology. -/
def tetraHullOp : BMesh → BMesh := fun m =>
  { m with
    edges := [(0, 1), (0, 2), (0, 3), (1, 2), (1, 3), (2, 3)]
    faces := [[0, 1, 2], [0, 1, 3], [0, 2, 3], [1, 2, 3]] }

/-- Hull operator instantiation that adds no geometry — the degenerate
outcome for a point set without extent (ten coincident points produce no
hull edges, so every vertex stays isolated). -/
def degenerateHullOp : BMesh → BMesh := fun m => m

/-- Four affinely independent points (a tetrahedron). -/
def tetraPts : List V3 := [![0, 0, 0], ![1, 0, 0], ![0, 2, 0], ![0, 0, 3]]

/-- The same tetrahedron as a finite point set. -/
def tetraFinset : Finset V3 := {![0, 0, 0], ![1, 0, 0], ![0, 2, 0], ![0, 0, 3]}

/-- Ten copies of a single point. -/
def repeatedPt : List V3 := List.replicate 10 ![1, 1, 1]

/-- Three collinear points on the x-axis. -/
def collinearPts : List V3 := [![0, 0, 0], ![1, 0, 0], ![2, 0, 0]]

/-- Two points whose covariance separates the `1/N` and `1/(N-1)`
normalisations. -/
def twoPts : List V3 := [![0, 0, 0], ![2, 0, 0]]

/-- A two-vertex one-edge mesh emitted by a hull operator (concrete
instantiation for evaluating the isolated-vertex filter). -/
def segHullOp : BMesh → BMesh := fun m =>
  { m with edges := [(0, 1)], faces := [[0, 1]] }

/-- A concrete two-point segment. -/
def segPts : List V3 := [![0, 0, 0], ![2, 0, 0]]

/-- A concrete block with a two-vertex mesh at the origin (used to evaluate
the placement pipeline at a concrete input). -/
def segBlock : BObject :=
  { mesh := { verts := segPts, edges := [(0, 1)], faces := [] }
    location := 0
    rotation := id3 }

/-! ## Basic lemmas about the embedded operations -/

theorem mulV_zero (m : M3) : mulV m 0 = 0 := by
  funext i
  simp [mulV]

theorem mulV_id3 (v : V3) : mulV id3 v = v := by
  funext i
  simp [mulV, id3, ite_mul, Finset.sum_ite_eq]

theorem vmin_sub (a b c : V3) : vmin (a - c) (b - c) = vmin a b - c := by
  funext i
  simp [vmin, min_sub_sub_right]

theorem vmax_sub (a b c : V3) : vmax (a - c) (b - c) = vmax a b - c := by
  funext i
  simp [vmax, max_sub_sub_right]

theorem listMin_map_sub (h c : V3) (t : List V3) :
    listMin (h - c) (t.map fun v => v - c) = listMin h t - c := by
  induction t generalizing h with
  | nil => rfl
  | cons x t ih =>
    simp only [List.map_cons, listMin, List.foldl_cons] at *
    rw [vmin_sub, ih]

theorem listMax_map_sub (h c : V3) (t : List V3) :
    listMax (h - c) (t.map fun v => v - c) = listMax h t - c := by
  induction t generalizing h with
  | nil => rfl
  | cons x t ih =>
    simp only [List.map_cons, listMax, List.foldl_cons] at *
    rw [vmax_sub, ih]

/-- Recentering at the bounding-box center sends the center to zero. -/
theorem bboxCenter_recenter (vs : List V3) :
    bboxCenter (vs.map fun v => v - bboxCenter vs) = 0 := by
  cases vs with
  | nil => simp [bboxCenter]
  | cons h t =>
    simp only [List.map_cons, bboxCenter, listMin_map_sub, listMax_map_sub]
    funext i
    show (listMin h t i - _ + (listMax h t i - _)) / 2 = 0
    show (listMin h t i - (listMin h t i + listMax h t i) / 2 +
      (listMax h t i - (listMin h t i + listMax h t i) / 2)) / 2 = 0
    ring

/-- The running minimum never exceeds the initial accumulator. -/
theorem listMin_le_head (h : V3) (t : List V3) (i : Fin 3) : listMin h t i ≤ h i := by
  induction t generalizing h with
  | nil => exact le_rfl
  | cons x t ih => exact le_trans (ih (vmin h x)) (min_le_left _ _)

/-- The running maximum is at least the initial accumulator. -/
theorem head_le_listMax (h : V3) (t : List V3) (i : Fin 3) : h i ≤ listMax h t i := by
  induction t generalizing h with
  | cons x t ih => exact le_trans (le_max_left _ _) (ih (vmax h x))
  | nil => exact le_rfl

/-- The minimum over a non-empty list bounds each member from below. -/
theorem listMin_le_of_mem {v h : V3} {t : List V3} (hv : v ∈ h :: t) (i : Fin 3) :
    listMin h t i ≤ v i := by
  induction t generalizing h with
  | nil =>
    rcases List.mem_cons.1 hv with rfl | hv'
    · exact le_rfl
    · cases hv'
  | cons x t ih =>
    show listMin (vmin h x) t i ≤ v i
    rcases List.mem_cons.1 hv with rfl | hv'
    · exact le_trans (le_trans (listMin_le_head _ _ _) (min_le_left _ _)) le_rfl
    · rcases List.mem_cons.1 hv' with rfl | hv''
      · exact le_trans (listMin_le_head _ _ _) (min_le_right _ _)
      · exact ih (List.mem_cons_of_mem _ hv'')

/-- Each member of a non-empty list bounds the maximum from below. -/
theorem le_listMax_of_mem {v h : V3} {t : List V3} (hv : v ∈ h :: t) (i : Fin 3) :
    v i ≤ listMax h t i := by
  induction t generalizing h with
  | nil =>
    rcases List.mem_cons.1 hv with rfl | hv'
    · exact le_rfl
    · cases hv'
  | cons x t ih =>
    show v i ≤ listMax (vmax h x) t i
    rcases List.mem_cons.1 hv with rfl | hv'
    · exact le_trans (le_max_left _ _) (head_le_listMax _ _ _)
    · rcases List.mem_cons.1 hv' with rfl | hv''
      · exact le_trans (le_max_right _ _) (head_le_listMax _ _ _)
      · exact ih (List.mem_cons_of_mem _ hv'')

/-- A lower bound of all members bounds the list minimum. -/
theorem le_listMin {x : ℚ} {h : V3} {t : List V3} {i : Fin 3}
    (hb : ∀ v ∈ h :: t, x ≤ v i) : x ≤ listMin h t i := by
  induction t generalizing h with
  | nil => exact hb h (List.mem_cons_self _ _)
  | cons y t ih =>
    show x ≤ listMin (vmin h y) t i
    refine ih fun v hv => ?_
    rcases List.mem_cons.1 hv with rfl | hv'
    · exact le_min (hb h (List.mem_cons_self _ _))
        (hb y (List.mem_cons_of_mem _ (List.mem_cons_self _ _)))
    · exact hb v (List.mem_cons_of_mem _ (List.mem_cons_of_mem _ hv'))

/-- An upper bound of all members bounds the list maximum. -/
theorem listMax_le {x : ℚ} {h : V3} {t : List V3} {i : Fin 3}
    (hb : ∀ v ∈ h :: t, v i ≤ x) : listMax h t i ≤ x := by
  induction t generalizing h with
  | nil => exact hb h (List.mem_cons_self _ _)
  | cons y t ih =>
    show listMax (vmax h y) t i ≤ x
    refine ih fun v hv => ?_
    rcases List.mem_cons.1 hv with rfl | hv'
    · exact max_le (hb h (List.mem_cons_self _ _))
        (hb y (List.mem_cons_of_mem _ (List.mem_cons_self _ _)))
    · exact hb v (List.mem_cons_of_mem _ (List.mem_cons_of_mem _ hv'))

/-- The componentwise list minimum never exceeds the maximum. -/
theorem listMin_le_listMax (h : V3) (t : List V3) (i : Fin 3) :
    listMin h t i ≤ listMax h t i :=
  le_trans (listMin_le_of_mem (List.mem_cons_self h t) i)
    (le_listMax_of_mem (List.mem_cons_self h t) i)

/-! ## C8 — recentering is idempotent -/

/-- **C8**: the recenter step is idempotent: applying
`move_origin_to_geometry_center` twice yields the same object as applying it
once, because the second application computes a bounding-box center of
`[0,0,0]`. -/
theorem c8_recenter_idempotent (block : BObject) :
    move_origin_to_geometry_center (move_origin_to_geometry_center block) =
        move_origin_to_geometry_center block ∧
      bboxCenter (move_origin_to_geometry_center block).mesh.verts = 0 := by
  refine ⟨?_, bboxCenter_recenter _⟩
  simp [move_origin_to_geometry_center, bboxCenter_recenter, mulV_zero]

/-! ## C7 — bake first, recenter afterwards -/

/-- **C7**: the tail of `create_collision_block` (lines 236–238) first bakes
offset and rotation — the offset is added to the location, the rotation
channel is set to the given rotation, the vertices are rewritten to their
world positions and the transform is reset to the identity — and only then
recenters the origin, so the bounding-box center is taken of the *already
baked* vertices.  The second conjunct shows at a concrete input that running
the recenter step before the bake step yields a different object, so the
order is not incidental. -/
theorem c7_bake_then_recenter :
    (∀ (block : BObject) (offset : V3) (rotE : M3),
      move_origin_to_geometry_center (apply_scale_offset_rotation block offset rotE) =
        (let baked := block.mesh.verts.map fun v => mulV rotE v + (block.location + offset);
         let c := bboxCenter baked;
         ⟨⟨baked.map fun v => v - c, block.mesh.edges, block.mesh.faces⟩, c, id3⟩)) ∧
    apply_scale_offset_rotation (move_origin_to_geometry_center segBlock) ![1, 0, 0] id3 ≠
      move_origin_to_geometry_center (apply_scale_offset_rotation segBlock ![1, 0, 0] id3) := by
  constructor
  · intro block offset rotE
    simp [move_origin_to_geometry_center, apply_scale_offset_rotation, mulV_id3]
  · intro h
    have hl := congrArg (fun b => b.location 0) h
    simp [apply_scale_offset_rotation, move_origin_to_geometry_center, segBlock, segPts,
      bboxCenter, listMin, listMax, vmin, vmax, mulV_id3] at hl
    norm_num at hl

/-! ## C4 — the isolated-vertex filter -/

/-- Every vertex surviving `deleteIsolatedVerts` is incident to an edge of
the reindexed mesh. -/
theorem deleteIsolated_edge_incident (m : BMesh) (i : Nat)
    (hi : i < (deleteIsolatedVerts m).verts.length) :
    ∃ e ∈ (deleteIsolatedVerts m).edges, e.1 = i ∨ e.2 = i := by
  unfold deleteIsolatedVerts at hi ⊢
  set keep := (List.range m.verts.length).filter (fun i => vertHasEdge m i) with hkeep
  simp only [List.length_map] at hi
  have hnd : keep.Nodup := (List.nodup_range _).filter _
  have hjmem : keep[i] ∈ keep := List.getElem_mem _
  have hje : vertHasEdge m keep[i] = true := (List.mem_filter.1 hjmem).2
  have hidx : keep.indexOf keep[i] = i := List.indexOf_getElem hnd i hi
  rcases List.any_eq_true.1 hje with ⟨e, he, hei⟩
  have hei' : e.1 = keep[i] ∨ e.2 = keep[i] := by simpa using hei
  rcases hei' with h1 | h1
  · exact ⟨(keep.indexOf e.1, keep.indexOf e.2),
      List.mem_map_of_mem _ he, Or.inl (by rw [h1, hidx])⟩
  · exact ⟨(keep.indexOf e.1, keep.indexOf e.2),
      List.mem_map_of_mem _ he, Or.inr (by rw [h1, hidx])⟩

/-- If every edge-incident vertex of the raw mesh lies on a face, then every
vertex surviving `deleteIsolatedVerts` lies on a face of the reindexed
mesh. -/
theorem deleteIsolated_face_incident (m : BMesh)
    (hF : ∀ j ∈ List.range m.verts.length, vertHasEdge m j = true →
      ∃ f ∈ m.faces, j ∈ f)
    (i : Nat) (hi : i < (deleteIsolatedVerts m).verts.length) :
    ∃ f ∈ (deleteIsolatedVerts m).faces, i ∈ f := by
  unfold deleteIsolatedVerts at hi ⊢
  set keep := (List.range m.verts.length).filter (fun i => vertHasEdge m i) with hkeep
  simp only [List.length_map] at hi
  have hnd : keep.Nodup := (List.nodup_range _).filter _
  have hjmem : keep[i] ∈ keep := List.getElem_mem _
  have hjr : keep[i] ∈ List.range m.verts.length := (List.mem_filter.1 hjmem).1
  have hje : vertHasEdge m keep[i] = true := (List.mem_filter.1 hjmem).2
  have hidx : keep.indexOf keep[i] = i := List.indexOf_getElem hnd i hi
  rcases hF keep[i] hjr hje with ⟨f, hf, hjf⟩
  exact ⟨f.map fun j => keep.indexOf j, List.mem_map_of_mem _ hf,
    hidx ▸ List.mem_map_of_mem _ hjf⟩

/-- **C4**: every vertex of the mesh returned by `create_convex_hull` is
incident to at least one edge — the deletion at line 154 enforces the
isolated-vertex invariant for every possible hull-operator output; moreover,
whenever the hull operator raw output puts each edge-incident vertex on a
face (as the documented hull output does for 3-D spanning input), every
returned vertex also lies on a face. -/
theorem c4_isolated_vertex_invariant (hullOp : BMesh → BMesh) (pts : List V3)
    (i : Nat) (hi : i < (create_convex_hull hullOp pts).verts.length) :
    (∃ e ∈ (create_convex_hull hullOp pts).edges, e.1 = i ∨ e.2 = i) ∧
      ((∀ j ∈ List.range (hullOp ⟨pts, [], []⟩).verts.length,
          vertHasEdge (hullOp ⟨pts, [], []⟩) j = true →
            ∃ f ∈ (hullOp ⟨pts, [], []⟩).faces, j ∈ f) →
        ∃ f ∈ (create_convex_hull hullOp pts).faces, i ∈ f) :=
  ⟨deleteIsolated_edge_incident _ i hi,
   fun hF => deleteIsolated_face_incident _ hF i hi⟩

/-- Witness for C4 at a concrete hull output: a two-vertex segment mesh. -/
theorem c4_isolated_vertex_invariant_witness :
    0 < (create_convex_hull segHullOp segPts).verts.length ∧
      ((∃ e ∈ (create_convex_hull segHullOp segPts).edges, e.1 = 0 ∨ e.2 = 0) ∧
        ((∀ j ∈ List.range (segHullOp ⟨segPts, [], []⟩).verts.length,
            vertHasEdge (segHullOp ⟨segPts, [], []⟩) j = true →
              ∃ f ∈ (segHullOp ⟨segPts, [], []⟩).faces, j ∈ f) →
          ∃ f ∈ (create_convex_hull segHullOp segPts).faces, 0 ∈ f)) :=
  ⟨by decide, c4_isolated_vertex_invariant segHullOp segPts 0 (by decide)⟩

/-! ## The convex path: final world positions ignore the PCA basis -/

/-- Characterization of the convex path: whatever the eigensolver returns,
the final world-space vertex positions are the hull vertices transformed by
the *user* rotation and offset only — `apply_scale_offset_rotation`
overwrites the rotation channel (and with it the PCA orientation set at line
209) before baking. -/
theorem convex_path_worldVerts (hullOp : BMesh → BMesh) (eigh : M3 → M3)
    (eulerToMat : V3 → M3) (h : V3) (t : List V3) (offset rotation : V3) :
    (create_collision_block hullOp eigh eulerToMat (h :: t) .convex offset
        rotation).resultWorldVerts =
      some ((create_convex_hull hullOp (h :: t)).verts.map fun v =>
        mulV (eulerToMat rotation) v + offset) := by
  simp only [create_collision_block, apply_scale_offset_rotation,
    move_origin_to_geometry_center, CCBResult.resultWorldVerts, worldVerts,
    mulV_id3, List.map_map, Option.some.injEq]
  refine List.map_congr_left fun v _ => ?_
  simp [Function.comp, zero_add, sub_add_cancel]

/-! ## C2 — no DegenerateInputError is ever raised -/

/-- **C2 (amended)**: `create_collision_block` raises no error for any
non-empty input: the convex branch (and likewise the box branch) always
completes and creates an object, degenerate input included — the code
contains no `raise` and no error type at all. -/
theorem c2_amended_no_error (hullOp : BMesh → BMesh) (eigh : M3 → M3)
    (eulerToMat : V3 → M3) (h : V3) (t : List V3) (method : Method)
    (offset rotation : V3) :
    (create_collision_block hullOp eigh eulerToMat (h :: t) method offset
      rotation).isCreated = true := by
  cases method <;> rfl

/-- **C2 (counterexample)**: for one point repeated 10 times,
`DegenerateInputError` is *not* raised — the convex path completes and an
object is created (it is true that `EmptyInputError` is not raised either). -/
theorem c2_counterexample_repeated_point :
    create_collision_block degenerateHullOp idEigh idEuler repeatedPt .convex 0 0 ≠
        CCBResult.error .degenerateInputError ∧
      create_collision_block degenerateHullOp idEigh idEuler repeatedPt .convex 0 0 ≠
        CCBResult.error .emptyInputError ∧
      (create_collision_block degenerateHullOp idEigh idEuler repeatedPt .convex 0
        0).isCreated = true :=
  ⟨fun h => CCBResult.noConfusion h, fun h => CCBResult.noConfusion h, rfl⟩

/-! ## C9 — empty input: atomic early return, but no EmptyInputError -/

/-- **C9 (amended)**: on an empty point set `create_collision_block` returns
early (the Python function prints and returns `None`): the result is
`noSelection` for every method and parameter choice — no object, mesh or
scene mutation is produced, so the failure is atomic — but no
`EmptyInputError` is surfaced to the caller. -/
theorem c9_amended_empty_input (hullOp : BMesh → BMesh) (eigh : M3 → M3)
    (eulerToMat : V3 → M3) (method : Method) (offset rotation : V3) :
    create_collision_block hullOp eigh eulerToMat [] method offset rotation =
      CCBResult.noSelection := rfl

/-- **C9 (counterexample)**: at the concrete empty input the result is the
plain early return, not `EmptyInputError`. -/
theorem c9_counterexample_empty_input :
    create_collision_block degenerateHullOp idEigh idEuler [] .box 0 0 =
        CCBResult.noSelection ∧
      create_collision_block degenerateHullOp idEigh idEuler [] .box 0 0 ≠
        CCBResult.error .emptyInputError :=
  ⟨rfl, fun h => CCBResult.noConfusion h⟩

/-! ## C10 — the emitted hull and the PCA basis -/

/-- **C10 (amended)**: the mesh stores the world-space hull vertex positions
and line 209 sets the object's world matrix to the PCA eigenvector matrix
with zero translation, but `apply_scale_offset_rotation` then overwrites the
rotation channel with the user rotation before baking, so each hull vertex's
final world position is `Euler(rotation) · w + offset` — independent of the
eigensolver's output; the emitted hull is *not* transformed by the PCA
basis. -/
theorem c10_amended_pca_discarded (hullOp : BMesh → BMesh) (eigh : M3 → M3)
    (eulerToMat : V3 → M3) (h : V3) (t : List V3) (offset rotation : V3) :
    (create_collision_block hullOp eigh eulerToMat (h :: t) .convex offset
        rotation).resultWorldVerts =
      some ((create_convex_hull hullOp (h :: t)).verts.map fun v =>
        mulV (eulerToMat rotation) v + offset) :=
  convex_path_worldVerts hullOp eigh eulerToMat h t offset rotation

/-! ## Covariance lemmas (C5, C6) -/

theorem vsum_apply (vs : List V3) (i : Fin 3) : vsum vs i = (vs.map fun v => v i).sum := by
  induction vs with
  | nil => rfl
  | cons h t ih =>
    simp only [vsum, List.foldr_cons, List.map_cons, List.sum_cons] at *
    show h i + _ = _
    rw [ih]

theorem npMean_apply (pts : List V3) (i : Fin 3) :
    npMean pts i = (rowOf i pts).sum / pts.length := by
  show vsum pts i / (pts.length : ℚ) = _
  rw [vsum_apply]
  rfl

/-- The i-th coordinate row of mean-centered points is the mean-centered
coordinate row. -/
theorem rowOf_centered (pts : List V3) (i : Fin 3) :
    rowOf i (pts.map fun v => v - npMean pts) = rowCentered (rowOf i pts) := by
  simp only [rowOf, rowCentered, List.map_map]
  refine List.map_congr_left fun v _ => ?_
  show v i - npMean pts i = v i - (pts.map fun p => p i).sum / (pts.map fun p => p i).length
  rw [npMean_apply, List.length_map]
  rfl

theorem sum_map_sub_const (l : List ℚ) (c : ℚ) :
    (l.map fun x => x - c).sum = l.sum - l.length * c := by
  induction l with
  | nil => simp
  | cons h t ih =>
    simp only [List.map_cons, List.sum_cons, List.length_cons, ih]
    push_cast
    ring

/-- Centering a non-empty row gives a row that sums to zero. -/
theorem rowCentered_sum (r : List ℚ) (hr : r.length ≠ 0) : (rowCentered r).sum = 0 := by
  unfold rowCentered
  rw [sum_map_sub_const]
  have hl : (r.length : ℚ) ≠ 0 := Nat.cast_ne_zero.2 hr
  field_simp

/-- Centering an already centered non-empty row is a no-op (numpy's internal
re-centering inside `np.cov` does not change already centered data). -/
theorem rowCentered_idem (r : List ℚ) (hr : r.length ≠ 0) :
    rowCentered (rowCentered r) = rowCentered r := by
  have hlen : (rowCentered r).length = r.length := List.length_map _ _
  have hs : (rowCentered r).sum = 0 := rowCentered_sum r hr
  conv_lhs => rw [rowCentered, hs]
  simp

theorem dotRow_map_mul (l : List V3) (f g : V3 → ℚ) :
    dotRow (l.map f) (l.map g) = (l.map fun p => f p * g p).sum := by
  induction l with
  | nil => rfl
  | cons h t ih =>
    simp only [dotRow, List.map_cons, List.zipWith_cons_cons, List.sum_cons] at *
    rw [ih]

/-! ## C6 — the covariance normalisation -/

/-- The covariance matrix computed by the code on centered coordinates, in
closed form: sum of products of centered coordinates divided by `N - 1`. -/
theorem np_cov_centered (pts : List V3) (h2 : 2 ≤ pts.length) (i j : Fin 3) :
    np_cov (pts.map fun v => v - npMean pts) i j = covSumN1 pts i j := by
  have hne : pts.length ≠ 0 := by omega
  have hri : (rowOf i pts).length ≠ 0 := by
    simpa [rowOf] using hne
  have hrj : (rowOf j pts).length ≠ 0 := by
    simpa [rowOf] using hne
  have hrow : ∀ k : Fin 3, rowCentered (rowOf k pts) =
      pts.map fun p => p k - npMean pts k := by
    intro k
    rw [← rowOf_centered]
    simp only [rowOf, List.map_map]
    rfl
  show dotRow (rowCentered (rowOf i (pts.map fun v => v - npMean pts)))
      (rowCentered (rowOf j (pts.map fun v => v - npMean pts))) /
      (((pts.map fun v => v - npMean pts).length : ℚ) - 1) = _
  rw [rowOf_centered, rowOf_centered, rowCentered_idem _ hri, rowCentered_idem _ hrj,
    List.length_map, hrow i, hrow j, dotRow_map_mul]
  rfl

/-- **C6 (amended)**: the covariance matrix computed by
`compute_pca_orientation` (via `np.cov` on the centered coordinates) is the
sum of products of centered coordinates divided by `N - 1` — numpy's default
`ddof = 1` — not by `N`. -/
theorem c6_amended_covariance_formula (pts : List V3) (h2 : 2 ≤ pts.length)
    (i j : Fin 3) :
    np_cov (pts.map fun v => v - npMean pts) i j = covSumN1 pts i j :=
  np_cov_centered pts h2 i j

/-- Witness for C6 (amended) at a two-point input. -/
theorem c6_amended_covariance_formula_witness :
    2 ≤ twoPts.length ∧
      np_cov (twoPts.map fun v => v - npMean twoPts) 0 0 = covSumN1 twoPts 0 0 :=
  ⟨by decide, c6_amended_covariance_formula twoPts (by decide) 0 0⟩

/-- **C6 (counterexample)**: for the two points `(0,0,0)` and `(2,0,0)` the
covariance entry `Cov[0][0]` computed by the code is `2` (division by
`N - 1 = 1`), while the spec formula — division by `N` — gives `1`; the
matrix fed to the eigensolver is exactly `np_cov` of the centered
coordinates. -/
theorem c6_counterexample_two_points :
    np_cov (twoPts.map fun v => v - npMean twoPts) 0 0 = 2 ∧
      specCovariance twoPts 0 0 = 1 ∧
      compute_pca_orientation idEigh twoPts =
        idEigh (np_cov (twoPts.map fun v => v - npMean twoPts)) := by
  have hm0 : npMean [![(0 : ℚ), 0, 0], ![2, 0, 0]] 0 = 1 := by
    rw [npMean_apply]
    norm_num [rowOf]
  refine ⟨?_, ?_, rfl⟩
  · rw [np_cov_centered twoPts (by decide) 0 0]
    simp [covSumN1, twoPts, hm0]
    norm_num
  · simp [specCovariance, twoPts, hm0]
    norm_num

/-! ## C5 — no degeneracy check in the orientation estimator -/

theorem sum_map_affine (ts : List ℚ) (c e : ℚ) :
    (ts.map fun t => c + t * e).sum = ts.length * c + ts.sum * e := by
  induction ts with
  | nil => simp
  | cons h t ih =>
    simp only [List.map_cons, List.sum_cons, List.length_cons, ih]
    push_cast
    ring

/-- Mean of points on a line: the line evaluated at the mean parameter. -/
theorem npMean_affine (a d : V3) (ts : List ℚ) (hts : ts ≠ []) :
    npMean (ts.map fun t => a + t • d) = a + (ts.sum / ts.length) • d := by
  have hn : (ts.length : ℚ) ≠ 0 := by
    simpa using List.length_pos.2 hts |>.ne'
  funext i
  rw [npMean_apply]
  have hrow : rowOf i (ts.map fun t => a + t • d) = ts.map fun t => a i + t * d i := by
    simp only [rowOf, List.map_map]
    rfl
  rw [hrow, sum_map_affine, List.length_map]
  show _ = a i + ts.sum / ts.length * d i
  field_simp
  ring

/-- Centering collinear points yields multiples of the direction vector. -/
theorem centered_collinear (a d : V3) (ts : List ℚ) (hts : ts ≠ []) :
    (ts.map fun t => a + t • d).map
        (fun v => v - npMean (ts.map fun t => a + t • d)) =
      ts.map fun t => (t - ts.sum / ts.length) • d := by
  rw [npMean_affine a d ts hts]
  simp only [List.map_map]
  refine List.map_congr_left fun t _ => ?_
  funext i
  show a i + t * d i - (a i + ts.sum / ts.length * d i) = (t - ts.sum / ts.length) * d i
  ring

/-- `np.cov`'s internal centering distributes over a common scalar factor. -/
theorem rowCentered_map_mul (r : List ℚ) (c : ℚ) :
    rowCentered (r.map fun x => x * c) = (rowCentered r).map fun x => x * c := by
  have hs : (r.map fun x => x * c).sum = r.sum * c := by
    induction r with
    | nil => simp
    | cons h t ih => simp [ih]; ring
  simp only [rowCentered, hs, List.length_map, List.map_map]
  refine List.map_congr_left fun x _ => ?_
  show x * c - r.sum * c / r.length = (x - r.sum / r.length) * c
  ring

theorem dotRow_mul_mul (r : List ℚ) (x y : ℚ) :
    dotRow (r.map fun t => t * x) (r.map fun t => t * y) = dotRow r r * (x * y) := by
  induction r with
  | nil => simp [dotRow]
  | cons h t ih =>
    simp only [dotRow, List.map_cons, List.zipWith_cons_cons, List.sum_cons] at *
    rw [ih]
    ring

/-- On collinear input the covariance matrix computed by the code is a
scalar multiple of the rank-one matrix `d dᵀ`. -/
theorem np_cov_collinear (a d : V3) (ts : List ℚ) (hts : ts ≠ []) :
    np_cov ((ts.map fun t => a + t • d).map fun v =>
        v - npMean (ts.map fun t => a + t • d)) =
      fun i j => (dotRow (rowCentered (ts.map fun t => t - ts.sum / ts.length))
        (rowCentered (ts.map fun t => t - ts.sum / ts.length)) /
          ((ts.length : ℚ) - 1)) * (d i * d j) := by
  funext i j
  rw [np_cov, centered_collinear a d ts hts]
  have hr : ∀ k : Fin 3, rowOf k (ts.map fun t => (t - ts.sum / ts.length) • d) =
      (ts.map fun t => t - ts.sum / ts.length).map fun x => x * d k := by
    intro k
    simp only [rowOf, List.map_map]
    rfl
  rw [hr i, hr j, rowCentered_map_mul, rowCentered_map_mul, dotRow_mul_mul,
    List.length_map, mul_div_right_comm]

/-- A scalar multiple of a rank-one matrix has zero determinant. -/
theorem det3_rank_one (s : ℚ) (d : V3) :
    det3 (fun i j => s * (d i * d j)) = 0 := by
  simp only [det3, det3v, minor2]
  ring

/-- **C5 (amended)**: `compute_pca_orientation` performs no degeneracy check:
on any non-empty collinear (or coincident) point set the covariance matrix it
builds is singular (`det = 0`), yet the function still hands it to the
eigensolver and returns the resulting basis instead of failing. -/
theorem c5_amended_no_degeneracy_check (eigh : M3 → M3) (a d : V3) (ts : List ℚ)
    (hts : ts ≠ []) :
    det3 (np_cov ((ts.map fun t => a + t • d).map fun v =>
        v - npMean (ts.map fun t => a + t • d))) = 0 ∧
      compute_pca_orientation eigh (ts.map fun t => a + t • d) =
        eigh (np_cov ((ts.map fun t => a + t • d).map fun v =>
          v - npMean (ts.map fun t => a + t • d))) := by
  refine ⟨?_, rfl⟩
  rw [np_cov_collinear a d ts hts]
  exact det3_rank_one _ d

/-- Witness for C5 (amended): three coincident-direction points on a line. -/
theorem c5_amended_no_degeneracy_check_witness :
    ([(0 : ℚ), 1, 2] ≠ []) ∧
      (det3 (np_cov ((([(0 : ℚ), 1, 2]).map fun t => ![0, 0, 0] + t • ![1, 0, 0]).map
          fun v => v - npMean (([(0 : ℚ), 1, 2]).map fun t =>
            ![0, 0, 0] + t • ![1, 0, 0]))) = 0 ∧
        compute_pca_orientation idEigh
            (([(0 : ℚ), 1, 2]).map fun t => ![0, 0, 0] + t • ![1, 0, 0]) =
          idEigh (np_cov ((([(0 : ℚ), 1, 2]).map fun t =>
              ![0, 0, 0] + t • ![1, 0, 0]).map fun v =>
            v - npMean (([(0 : ℚ), 1, 2]).map fun t => ![0, 0, 0] + t • ![1, 0, 0])))) :=
  ⟨by simp, c5_amended_no_degeneracy_check idEigh ![0, 0, 0] ![1, 0, 0] [0, 1, 2] (by simp)⟩

/-- **C5 (counterexample)**: on three collinear points no
`DegenerateInputError` is raised: the convex path completes, and
`compute_pca_orientation` silently returns the eigensolver's basis. -/
theorem c5_counterexample_collinear :
    create_collision_block degenerateHullOp idEigh idEuler collinearPts .convex 0 0 ≠
        CCBResult.error .degenerateInputError ∧
      (create_collision_block degenerateHullOp idEigh idEuler collinearPts .convex
        0 0).isCreated = true ∧
      compute_pca_orientation idEigh collinearPts = id3 :=
  ⟨fun h => CCBResult.noConfusion h, rfl, rfl⟩

/-! ## C3 — the box branch -/

theorem mulV_sub (m : M3) (v c : V3) : mulV m (v - c) = mulV m v - mulV m c := by
  funext i
  simp [mulV, mul_sub, Finset.sum_sub_distrib]

/-- `origin_set` keeps world-space vertex positions unchanged. -/
theorem worldVerts_move (b : BObject) :
    worldVerts (move_origin_to_geometry_center b) = worldVerts b := by
  simp only [worldVerts, move_origin_to_geometry_center, List.map_map]
  refine List.map_congr_left fun v _ => ?_
  show mulV b.rotation (v - bboxCenter b.mesh.verts) +
      (b.location + mulV b.rotation (bboxCenter b.mesh.verts)) =
    mulV b.rotation v + b.location
  rw [mulV_sub]
  abel

/-- The box branch of `create_collision_block`, unfolded. -/
theorem create_box_eq (hullOp : BMesh → BMesh) (eigh : M3 → M3)
    (eulerToMat : V3 → M3) (h : V3) (t : List V3) (offset rot : V3) :
    create_collision_block hullOp eigh eulerToMat (h :: t) .box offset rot =
      CCBResult.created (move_origin_to_geometry_center
        (apply_scale_offset_rotation
          { mesh := boxBMesh (listMin h t) (listMax h t)
              ((listMin h t + listMax h t) / 2)
            location := (listMin h t + listMax h t) / 2
            rotation := id3 } offset (eulerToMat rot))) := rfl

/-- The created box object, before recentering bookkeeping: its world-space
vertices are the snapped cube corners and its location is their bounding-box
center. -/
theorem box_path_created (hullOp : BMesh → BMesh) (eigh : M3 → M3)
    (eulerToMat : V3 → M3) (h : V3) (t : List V3) (rot : V3)
    (hE : eulerToMat rot = id3) :
    ∃ b, create_collision_block hullOp eigh eulerToMat (h :: t) .box 0 rot =
        CCBResult.created b ∧
      worldVerts b = cubeLocals.map
        (snapCorner (listMin h t) (listMax h t) ((listMin h t + listMax h t) / 2)) ∧
      b.location = bboxCenter (cubeLocals.map
        (snapCorner (listMin h t) (listMax h t) ((listMin h t + listMax h t) / 2))) := by
  rw [create_box_eq]
  have hverts : (apply_scale_offset_rotation
      { mesh := boxBMesh (listMin h t) (listMax h t) ((listMin h t + listMax h t) / 2)
        location := (listMin h t + listMax h t) / 2
        rotation := id3 } 0 (eulerToMat rot)).mesh.verts = cubeLocals.map
        (snapCorner (listMin h t) (listMax h t) ((listMin h t + listMax h t) / 2)) := by
    simp only [apply_scale_offset_rotation, boxBMesh, boxLocalVert, List.map_map, hE]
    refine List.map_congr_left fun s _ => ?_
    show mulV id3 (snapCorner _ _ _ s - _) + (_ + 0) = snapCorner _ _ _ s
    rw [mulV_id3, add_zero, sub_add_cancel]
  refine ⟨_, rfl, ?_, ?_⟩
  · rw [worldVerts_move]
    show ((apply_scale_offset_rotation _ 0 (eulerToMat rot)).mesh.verts).map
        (fun v => mulV id3 v + 0) = _
    simp only [mulV_id3, add_zero, List.map_id', hverts]
  · show (0 : V3) + mulV id3 (bboxCenter (apply_scale_offset_rotation _ 0
      (eulerToMat rot)).mesh.verts) = _
    rw [hverts, mulV_id3, zero_add]

/-- Snapped corners stay within the `[min, max]` bounds. -/
theorem snapCorner_bounds (mn mx c : V3) (hmm : ∀ i, mn i ≤ mx i) (s : V3)
    (i : Fin 3) : mn i ≤ snapCorner mn mx c s i ∧ snapCorner mn mx c s i ≤ mx i := by
  unfold snapCorner
  split
  · exact ⟨le_rfl, hmm i⟩
  · exact ⟨hmm i, le_rfl⟩

/-- A corner offset that is negative on axis `i` snaps to `min` there. -/
theorem snapCorner_neg (mn mx c s : V3) (i : Fin 3) (hs : s i < 0) :
    snapCorner mn mx c s i = mn i := by
  unfold snapCorner
  rw [if_pos]
  exact add_lt_iff_neg_left.2 hs

/-- A corner offset that is nonnegative on axis `i` snaps to `max` there. -/
theorem snapCorner_nonneg (mn mx c s : V3) (i : Fin 3) (hs : 0 ≤ s i) :
    snapCorner mn mx c s i = mx i := by
  unfold snapCorner
  rw [if_neg]
  exact not_lt.2 (le_add_of_nonneg_right hs)

theorem lowCorner_neg (i : Fin 3) : (![-(1/2 : ℚ), -(1/2), -(1/2)] : V3) i < 0 := by
  fin_cases i <;> norm_num

theorem highCorner_nonneg (i : Fin 3) : (0 : ℚ) ≤ (![(1/2 : ℚ), 1/2, 1/2] : V3) i := by
  fin_cases i <;> norm_num

/-- The bounding-box center of the snapped cube corners is the midpoint of
the bounds. -/
theorem snapped_bboxCenter (mn mx c : V3) (hmm : ∀ i, mn i ≤ mx i) :
    bboxCenter (cubeLocals.map (snapCorner mn mx c)) = (mn + mx) / 2 := by
  have hbound : ∀ v ∈ cubeLocals.map (snapCorner mn mx c), ∀ i : Fin 3,
      mn i ≤ v i ∧ v i ≤ mx i := by
    intro v hv i
    rcases List.mem_map.1 hv with ⟨s, _, rfl⟩
    exact snapCorner_bounds mn mx c hmm s i
  have hmem7 : snapCorner mn mx c ![(1/2 : ℚ), 1/2, 1/2] ∈
      cubeLocals.map (snapCorner mn mx c) :=
    List.mem_map_of_mem _ (by simp [cubeLocals])
  show bboxCenter (snapCorner mn mx c ![-(1/2), -(1/2), -(1/2)] ::
    ((cubeLocals.tail).map (snapCorner mn mx c))) = _
  show (listMin _ _ + listMax _ _) / 2 = (mn + mx) / 2
  funext i
  show (listMin _ _ i + listMax _ _ i) / 2 = (mn i + mx i) / 2
  have hminv : listMin (snapCorner mn mx c ![-(1/2), -(1/2), -(1/2)])
      ((cubeLocals.tail).map (snapCorner mn mx c)) i = mn i := by
    refine le_antisymm ?_ (le_listMin fun v hv => (hbound v hv i).1)
    calc listMin _ _ i ≤ snapCorner mn mx c ![-(1/2), -(1/2), -(1/2)] i :=
          listMin_le_of_mem (List.mem_cons_self _ _) i
      _ = mn i := snapCorner_neg mn mx c _ i (lowCorner_neg i)
  have hmaxv : listMax (snapCorner mn mx c ![-(1/2), -(1/2), -(1/2)])
      ((cubeLocals.tail).map (snapCorner mn mx c)) i = mx i := by
    refine le_antisymm (listMax_le fun v hv => (hbound v hv i).2) ?_
    calc mx i = snapCorner mn mx c ![(1/2 : ℚ), 1/2, 1/2] i :=
          (snapCorner_nonneg mn mx c _ i (highCorner_nonneg i)).symm
      _ ≤ listMax _ _ i := le_listMax_of_mem hmem7 i
  rw [hminv, hmaxv]

/-- **C3**: for every non-empty point set the box branch creates an object
whose world-space vertices lie exactly within the componentwise `[min, max]`
bounds of the input — every coordinate is bounded by them and both bounds are
attained on every axis (zero-thickness axes included: no hypothesis separates
`min` from `max`) — and whose location is the midpoint of `min` and `max`. -/
theorem c3_box_extent (hullOp : BMesh → BMesh) (eigh : M3 → M3)
    (eulerToMat : V3 → M3) (h : V3) (t : List V3) (rot : V3)
    (hE : eulerToMat rot = id3) :
    ∃ b, create_collision_block hullOp eigh eulerToMat (h :: t) .box 0 rot =
        CCBResult.created b ∧
      (∀ w ∈ worldVerts b, ∀ i : Fin 3, listMin h t i ≤ w i ∧ w i ≤ listMax h t i) ∧
      (∀ i : Fin 3, (∃ w ∈ worldVerts b, w i = listMin h t i) ∧
        (∃ w ∈ worldVerts b, w i = listMax h t i)) ∧
      b.location = (listMin h t + listMax h t) / 2 := by
  have hmm : ∀ i, listMin h t i ≤ listMax h t i := listMin_le_listMax h t
  obtain ⟨b, hb, hw, hl⟩ := box_path_created hullOp eigh eulerToMat h t rot hE
  refine ⟨b, hb, ?_, ?_, ?_⟩
  · intro w hw' i
    rw [hw] at hw'
    rcases List.mem_map.1 hw' with ⟨s, _, rfl⟩
    exact snapCorner_bounds _ _ _ hmm s i
  · intro i
    constructor
    · refine ⟨snapCorner (listMin h t) (listMax h t)
        ((listMin h t + listMax h t) / 2) ![-(1/2), -(1/2), -(1/2)], ?_, ?_⟩
      · rw [hw]
        exact List.mem_map_of_mem _ (by simp [cubeLocals])
      · exact snapCorner_neg _ _ _ _ i (lowCorner_neg i)
    · refine ⟨snapCorner (listMin h t) (listMax h t)
        ((listMin h t + listMax h t) / 2) ![(1/2 : ℚ), 1/2, 1/2], ?_, ?_⟩
      · rw [hw]
        exact List.mem_map_of_mem _ (by simp [cubeLocals])
      · exact snapCorner_nonneg _ _ _ _ i (highCorner_nonneg i)
  · rw [hl, snapped_bboxCenter _ _ _ hmm]

/-- Witness for C3: the spec round-trip example
`{(0,0,0),(2,0,0),(0,2,0),(0,0,2)}` has `min = (0,0,0)`, `max = (2,2,2)`
and box center `(1,1,1)`. -/
theorem c3_box_extent_witness :
    idEuler (0 : V3) = id3 ∧
      (∃ b, create_collision_block degenerateHullOp idEigh idEuler boxPts .box 0 0 =
          CCBResult.created b ∧
        (∀ w ∈ worldVerts b, ∀ i : Fin 3,
          listMin ![0, 0, 0] [![2, 0, 0], ![0, 2, 0], ![0, 0, 2]] i ≤ w i ∧
            w i ≤ listMax ![0, 0, 0] [![2, 0, 0], ![0, 2, 0], ![0, 0, 2]] i) ∧
        (∀ i : Fin 3, (∃ w ∈ worldVerts b,
            w i = listMin ![0, 0, 0] [![2, 0, 0], ![0, 2, 0], ![0, 0, 2]] i) ∧
          (∃ w ∈ worldVerts b,
            w i = listMax ![0, 0, 0] [![2, 0, 0], ![0, 2, 0], ![0, 0, 2]] i)) ∧
        b.location = (listMin ![0, 0, 0] [![2, 0, 0], ![0, 2, 0], ![0, 0, 2]] +
          listMax ![0, 0, 0] [![2, 0, 0], ![0, 2, 0], ![0, 0, 2]]) / 2) ∧
      listMin ![0, 0, 0] [![2, 0, 0], ![0, 2, 0], ![0, 0, 2]] = ![0, 0, 0] ∧
      listMax ![0, 0, 0] [![2, 0, 0], ![0, 2, 0], ![0, 0, 2]] = ![2, 2, 2] ∧
      (listMin ![0, 0, 0] [![2, 0, 0], ![0, 2, 0], ![0, 0, 2]] +
        listMax ![0, 0, 0] [![2, 0, 0], ![0, 2, 0], ![0, 0, 2]]) / 2 = ![1, 1, 1] := by
  refine ⟨rfl, c3_box_extent degenerateHullOp idEigh idEuler ![0, 0, 0]
    [![2, 0, 0], ![0, 2, 0], ![0, 0, 2]] 0 rfl, ?_, ?_, ?_⟩
  · funext i
    fin_cases i <;> simp [listMin, vmin]
  · funext i
    fin_cases i <;> simp [listMax, vmax]
  · funext i
    fin_cases i <;> simp [listMin, listMax, vmin, vmax]

/-- **C10 (counterexample)**: with an eigensolver returning the (non-identity)
axis-swap basis on a tetrahedron input and default offset/rotation, the final
world-space positions are exactly the input points — *not* the PCA basis
applied to them: the emitted hull remains coincident with the input. -/
theorem c10_counterexample_swap_basis :
    (create_collision_block tetraHullOp swapEigh idEuler tetraPts .convex 0
        0).resultWorldVerts = some tetraPts ∧
      tetraPts.map (mulV swapXY) ≠ tetraPts ∧ swapXY ≠ id3 := by
  refine ⟨?_, ?_, ?_⟩
  · rw [show tetraPts = ![0, 0, 0] :: [![1, 0, 0], ![0, 2, 0], ![0, 0, 3]] from rfl,
      convex_path_worldVerts tetraHullOp swapEigh idEuler ![0, 0, 0]
        [![1, 0, 0], ![0, 2, 0], ![0, 0, 3]] 0 0]
    have hverts : (create_convex_hull tetraHullOp
        (![0, 0, 0] :: [![1, 0, 0], ![0, 2, 0], ![0, 0, 3]])).verts = tetraPts := rfl
    rw [hverts]
    have hid : idEuler (0 : V3) = id3 := rfl
    simp [hid, mulV_id3, tetraPts]
  · intro h
    have h1 := congrArg (fun l => (l.getD 1 0) 0) h
    simp [tetraPts, mulV, swapXY, Fin.sum_univ_three] at h1
  · intro h
    have h1 := congrArg (fun m => m 0 1) h
    simp [swapXY, id3] at h1

/-! ## C1 — the hull is the minimal convex polyhedron

The vertex set retained by the hull pipeline is modelled by `hullVertices`:
the input points not inside the convex hull of the others.  The substantial
fact is that the convex hull of these extreme points is the convex hull of
the whole input — i.e. dropping the absorbed interior points loses nothing. -/

theorem hull_insert_absorb {s : Set V3} {q : V3} (hq : q ∈ convexHull ℚ s) :
    convexHull ℚ (insert q s) = convexHull ℚ s := by
  refine subset_antisymm (convexHull_min ?_ (convex_convexHull ℚ s))
    (convexHull_mono (Set.subset_insert q s))
  intro x hx
  rcases Set.mem_insert_iff.1 hx with rfl | hx
  · exact hq
  · exact subset_convexHull ℚ s hx

/-- The exchange step: if `p` is in the hull of `{q} ∪ s` and `q` is in the
hull of `{p} ∪ s`, with `p ≠ q` and neither in `s`, then `p` is already in
the hull of `s`. -/
theorem hull_exchange (s : Finset V3) (p q : V3) (hpq : p ≠ q) (hps : p ∉ s)
    (hqs : q ∉ s) (hp : p ∈ convexHull ℚ (↑(insert q s) : Set V3))
    (hq : q ∈ convexHull ℚ (↑(insert p s) : Set V3)) :
    p ∈ convexHull ℚ (↑s : Set V3) := by
  rw [Finset.mem_convexHull'] at hp hq ⊢
  obtain ⟨w, hw0, hw1, hwp⟩ := hp
  obtain ⟨u, hu0, hu1, huq⟩ := hq
  rw [Finset.sum_insert hqs] at hw1 hwp
  rw [Finset.sum_insert hps] at hu1 huq
  have hb0 : 0 ≤ w q := hw0 q (Finset.mem_insert_self q s)
  have ha0 : 0 ≤ u p := hu0 p (Finset.mem_insert_self p s)
  have hwrest0 : 0 ≤ ∑ y ∈ s, w y :=
    Finset.sum_nonneg fun y hy => hw0 y (Finset.mem_insert_of_mem hy)
  have hurest0 : 0 ≤ ∑ y ∈ s, u y :=
    Finset.sum_nonneg fun y hy => hu0 y (Finset.mem_insert_of_mem hy)
  have hb1 : w q ≤ 1 := by linarith
  have ha1 : u p ≤ 1 := by linarith
  have hba : w q * u p ≤ 1 := mul_le_one₀ hb1 ha0 ha1
  rcases eq_or_lt_of_le hba with heq | hlt
  · -- total absorption: forces p = q, contradiction
    have hb : w q = 1 := by nlinarith
    have ha : u p = 1 := by nlinarith
    have hsw : ∑ y ∈ s, w y = 0 := by linarith
    have hwz : ∀ y ∈ s, w y = 0 :=
      (Finset.sum_eq_zero_iff_of_nonneg fun y hy =>
        hw0 y (Finset.mem_insert_of_mem hy)).1 hsw
    have hzero : ∑ y ∈ s, w y • y = 0 :=
      Finset.sum_eq_zero fun y hy => by rw [hwz y hy, zero_smul]
    have : q = p := by
      rw [hzero, add_zero, hb, one_smul] at hwp
      exact hwp
    exact absurd this.symm hpq
  · set c : ℚ := 1 - w q * u p with hcdef
    have hc0 : 0 < c := by simp only [hcdef]; linarith
    refine ⟨fun y => (w q * u y + w y) / c, fun y hy => ?_, ?_, ?_⟩
    · exact div_nonneg
        (add_nonneg (mul_nonneg hb0 (hu0 y (Finset.mem_insert_of_mem hy)))
          (hw0 y (Finset.mem_insert_of_mem hy))) hc0.le
    · rw [← Finset.sum_div, Finset.sum_add_distrib, ← Finset.mul_sum]
      have h1 : ∑ y ∈ s, u y = 1 - u p := by linarith
      have h2 : ∑ y ∈ s, w y = 1 - w q := by linarith
      rw [h1, h2]
      field_simp
      simp only [hcdef]
      ring
    · have hsum : ∑ y ∈ s, (w q * u y + w y) • y =
          w q • (∑ y ∈ s, u y • y) + ∑ y ∈ s, w y • y := by
        rw [Finset.smul_sum, ← Finset.sum_add_distrib]
        refine Finset.sum_congr rfl fun y _ => ?_
        rw [add_smul, smul_smul]
      have hu' : ∑ y ∈ s, u y • y = q - u p • p := eq_sub_of_add_eq' huq
      have hw' : ∑ y ∈ s, w y • y = p - w q • q := eq_sub_of_add_eq' hwp
      have key : ∑ y ∈ s, (w q * u y + w y) • y = c • p := by
        rw [hsum, hu', hw', smul_sub, smul_smul, hcdef, sub_smul, one_smul]
        abel
      have hsplit : ∑ y ∈ s, ((w q * u y + w y) / c) • y =
          c⁻¹ • ∑ y ∈ s, (w q * u y + w y) • y := by
        rw [Finset.smul_sum]
        refine Finset.sum_congr rfl fun y _ => ?_
        rw [div_eq_inv_mul, mul_smul]
      rw [hsplit, key, smul_smul, inv_mul_cancel₀ hc0.ne', one_smul]

/-- Removing an absorbed (non-extreme) point does not create new extreme
points: an extreme point of `S.erase q` is an extreme point of `S`. -/
theorem hullVertices_erase_subset (S : Finset V3) (q : V3) (hqS : q ∈ S)
    (hq : q ∈ convexHull ℚ (↑(S.erase q) : Set V3)) :
    hullVertices ↑(S.erase q) ⊆ hullVertices ↑S := by
  rintro p ⟨hpmem, hpext⟩
  have hpS' : p ∈ S.erase q := Finset.mem_coe.1 hpmem
  have hpq : p ≠ q := (Finset.mem_erase.1 hpS').1
  have hpS : p ∈ S := (Finset.mem_erase.1 hpS').2
  refine ⟨Finset.mem_coe.2 hpS, fun hcon => ?_⟩
  rw [← Finset.coe_erase] at hcon
  have hq_in_erase_p : q ∈ S.erase p :=
    Finset.mem_erase.2 ⟨fun hh => hpq hh.symm, hqS⟩
  rw [← Finset.insert_erase hq_in_erase_p] at hcon
  rw [← Finset.insert_erase hpS', Finset.erase_right_comm] at hq
  have hps0 : p ∉ (S.erase p).erase q :=
    fun hh => Finset.not_mem_erase p S (Finset.mem_of_mem_erase hh)
  have hqs0 : q ∉ (S.erase p).erase q := Finset.not_mem_erase q _
  have hmem := hull_exchange ((S.erase p).erase q) p q hpq hps0 hqs0 hcon hq
  apply hpext
  rw [← Finset.coe_erase, Finset.erase_right_comm]
  exact hmem

/-- The convex hull of the extreme points of a finite set is the convex hull
of the whole set. -/
theorem convexHull_hullVertices (S : Finset V3) :
    convexHull ℚ (hullVertices ↑S) = convexHull ℚ (↑S : Set V3) := by
  induction S using Finset.strongInductionOn with
  | _ S ih =>
    by_cases hex : ∃ q ∈ S, q ∈ convexHull ℚ (↑(S.erase q) : Set V3)
    · obtain ⟨q, hqS, hq⟩ := hex
      have h1 : convexHull ℚ (↑S : Set V3) = convexHull ℚ ↑(S.erase q) := by
        conv_lhs => rw [← Finset.insert_erase hqS]
        rw [Finset.coe_insert]
        exact hull_insert_absorb hq
      have h2 := ih (S.erase q) (Finset.erase_ssubset hqS)
      refine subset_antisymm (convexHull_mono fun x hx => hx.1) ?_
      rw [h1, ← h2]
      exact convexHull_mono (hullVertices_erase_subset S q hqS hq)
    · push_neg at hex
      have hall : hullVertices ↑S = ↑S := by
        ext p
        refine ⟨fun hp => hp.1, fun hp => ⟨hp, ?_⟩⟩
        rw [← Finset.coe_erase]
        exact hex p (Finset.mem_coe.1 hp)
      rw [hall]

/-- **C1**: for every non-empty point set spanning 3 dimensions, the hull
mesh — whose vertex set is modelled by `hullVertices` — is the minimal convex
polyhedron containing all input points: every input point lies in the convex
hull of the output vertices, and that hull is contained in every convex set
containing the input (so it is the convex hull proper, not a superset). -/
theorem c1_hull_minimal (S : Finset V3) (hne : S.Nonempty) (hsp : spans3 S) :
    (∀ p ∈ S, p ∈ convexHull ℚ (hullVertices ↑S)) ∧
      ∀ C : Set V3, Convex ℚ C → ↑S ⊆ C → convexHull ℚ (hullVertices ↑S) ⊆ C := by
  constructor
  · intro p hp
    rw [convexHull_hullVertices]
    exact subset_convexHull ℚ _ (Finset.mem_coe.2 hp)
  · intro C hC hSC
    rw [convexHull_hullVertices]
    exact convexHull_min hSC hC

/-- Witness for C1: the tetrahedron `{(0,0,0),(1,0,0),(0,2,0),(0,0,3)}` is
non-empty and spans 3 dimensions. -/
theorem c1_hull_minimal_witness :
    tetraFinset.Nonempty ∧ spans3 tetraFinset ∧
      ((∀ p ∈ tetraFinset, p ∈ convexHull ℚ (hullVertices ↑tetraFinset)) ∧
        ∀ C : Set V3, Convex ℚ C → ↑tetraFinset ⊆ C →
          convexHull ℚ (hullVertices ↑tetraFinset) ⊆ C) := by
  have hne : tetraFinset.Nonempty := ⟨![0, 0, 0], by simp [tetraFinset]⟩
  have hsp : spans3 tetraFinset := by
    refine ⟨![0, 0, 0], by simp [tetraFinset], ![1, 0, 0], by simp [tetraFinset],
      ![0, 2, 0], by simp [tetraFinset], ![0, 0, 3], by simp [tetraFinset], ?_⟩
    show det3v (![1, 0, 0] - ![0, 0, 0]) (![0, 2, 0] - ![0, 0, 0])
      (![0, 0, 3] - ![0, 0, 0]) ≠ 0
    norm_num [det3v, minor2]
  exact ⟨hne, hsp, c1_hull_minimal tetraFinset hne hsp⟩
